import Mathlib

/-!
Verification of the EVM word codec in `src/utils` (ethabi.go and utils.go):
the word-level integer/byte encoders (`EVMWordUint64`, `EVMWordSignedBigInt`,
`EVMWordBigInt`), the JSON-to-ABI transcoders (`EVMTranscodeBytes`,
`EVMTranscodeBool`, `EVMTranscodeUint256`), the hex-prefix helper
(`HasHexPrefix`, `RemoveHexPrefix`) and the range constants computed in the
`init` functions.

Modelling conventions:
* Go byte slices are `List Nat` whose entries are below 256 (the encoders
  only ever produce entries of the form `_ % 256`, or literal `0`).
* Go strings are their byte sequences, again `List Nat` (Go indexes strings
  by byte: `str[0]`).
* `math/big.Int` values are `Int`; `big.Int.Bytes` (minimal big-endian
  magnitude) is `natToBEBytes`, `big.Int.BitLen` is `bitLen`,
  `big.Int.SetString` for the bases 10 and 16 is `setString`.
* `gjson.Result` is the tagged union `GJSON`.  Its `Num` field is a `float64`
  in Go; it is modelled as the integer the float holds (every numeric input
  in the claims is integral).  Go's float-to-integer conversions
  `uint64(value.Num)` / `int64(value.Num)` are `uint64conv` / `int64conv`,
  modelled with amd64 semantics (in-range values convert exactly; the
  conversion always lands in the machine-integer range).
* The `error` results are the spec's error taxonomy `EVMError`; the Go code
  returns distinct `fmt.Errorf` / `errors.New` messages at exactly the
  places the corresponding constructor is produced here.
-/

namespace Chainlink

/-- EVMWordByteLen from utils.go: the length of an EVM word in bytes. -/
abbrev EVMWordByteLen : Nat := 32

/-- Big-endian value of a byte sequence: the number the bytes denote
base 256, first byte most significant. -/
def beVal : List Nat → Nat
  | [] => 0
  | b :: bs => b * 256 ^ bs.length + beVal bs

/-- Fuel-driven minimal big-endian byte expansion of a natural number
(`fuel` bounds the recursion; any `fuel ≥ n` gives the digits of `n`). -/
def beBytesAux : Nat → Nat → List Nat
  | 0, _ => []
  | fuel + 1, n => if n = 0 then [] else beBytesAux fuel (n / 256) ++ [n % 256]

/-- Model of `big.Int.Bytes`: the minimal big-endian byte representation of
the magnitude; the empty slice for 0. -/
def natToBEBytes (n : Nat) : List Nat := beBytesAux n n

/-- Fuel-driven bit length (`fuel` bounds the recursion). -/
def bitLenAux : Nat → Nat → Nat
  | 0, _ => 0
  | fuel + 1, n => if n = 0 then 0 else bitLenAux fuel (n / 2) + 1

/-- Model of `big.Int.BitLen`: the number of bits of the magnitude; 0 for 0.
Characterised by `bitLen_le_iff : bitLen n ≤ k ↔ n < 2 ^ k`. -/
def bitLen (n : Nat) : Nat := bitLenAux n n

/-- go-ethereum `common.LeftPadBytes`: left-pads with zeros up to length `l`;
a slice already at least `l` long is returned unchanged. -/
def leftPadBytes (slice : List Nat) (l : Nat) : List Nat :=
  if l ≤ slice.length then slice else List.replicate (l - slice.length) 0 ++ slice

/-- From the `init` function: `maxUint257 = 2^256` (the source's own name). -/
def maxUint257 : Int := 2 ^ 256

/-- From the `init` function: `MaxUint256 = maxUint257 - 1`. -/
def MaxUint256 : Int := maxUint257 - 1

/-- From the `init` function: `MaxInt256 = MaxUint256 / 2` (Go `big.Int.Div`,
Euclidean; both operands are positive so any division convention agrees). -/
def MaxInt256 : Int := MaxUint256 / 2

/-- From the `init` function: `MinInt256 = -MaxInt256`. -/
def MinInt256 : Int := -MaxInt256

/-- The spec's error taxonomy (§7); each constructor stands for the one
`fmt.Errorf` / `errors.New` the code produces at the matching place. -/
inductive EVMError
  | overflow
  | sign
  | format
  | parse
  deriving DecidableEq

/-- ethabi.go `EVMWordUint64`: a 32-byte word, the low 8 bytes holding the
value big-endian (`binary.BigEndian.PutUint64` into bytes 24..31). -/
def EVMWordUint64 (val : Nat) : List Nat :=
  List.replicate 24 0 ++ (List.range 8).map (fun j => val / 256 ^ (7 - j) % 256)

/-- ethabi.go `EVMWordSignedBigInt`: errors when `val.BitLen() > 255`;
for negative values the bytes are those of `(val + MaxUint256) + 1`;
then left-pads to 32 bytes. -/
def EVMWordSignedBigInt (val : Int) : Except EVMError (List Nat) :=
  if bitLen val.natAbs > 8 * EVMWordByteLen - 1 then
    .error .overflow
  else if val < 0 then
    .ok (leftPadBytes (natToBEBytes (val + MaxUint256 + 1).toNat) EVMWordByteLen)
  else
    .ok (leftPadBytes (natToBEBytes val.natAbs) EVMWordByteLen)

/-- ethabi.go `EVMWordBigInt`: errors on a negative value, then on a
magnitude needing more than 32 bytes; otherwise left-pads to 32 bytes. -/
def EVMWordBigInt (val : Int) : Except EVMError (List Nat) :=
  if val < 0 then .error .sign
  else if (natToBEBytes val.natAbs).length > EVMWordByteLen then .error .overflow
  else .ok (leftPadBytes (natToBEBytes val.natAbs) EVMWordByteLen)

/-- A parsed `gjson.Result`: string (its bytes), number (the integral value
of the float64 `Num`), the two booleans, null, and any other kind
(object/array). -/
inductive GJSON
  | jstr (s : List Nat)
  | jnum (n : Int)
  | jtrue
  | jfalse
  | jnull
  | jother
  deriving DecidableEq

/-- utils.go `ConcatBytes`: appends the buffers in order.  `bytes.Buffer.Write`
is documented never to return an error, so the error path is dead. -/
def ConcatBytes (bufs : List (List Nat)) : Except EVMError (List Nat) :=
  .ok bufs.flatten

/-- Go conversion `uint64(f)` of a `float64` holding the integer `n`,
with amd64 semantics: for `-2^63 ≤ n < 2^64` the result is `n mod 2^64`
(negative values go through `uint64(int64(f))`, a wrap). -/
def uint64conv (n : Int) : Nat := (n % 2 ^ 64).toNat

/-- Go conversion `int64(f)` of a `float64` holding the integer `n`,
with amd64 semantics: in-range values convert exactly and an out-of-range
value yields the int64 minimum (`CVTTSD2SI`). -/
def int64conv (n : Int) : Int :=
  if -(2 ^ 63) ≤ n ∧ n < 2 ^ 63 then n else -(2 ^ 63)

/-- utils.go `HasHexPrefix`: `len(str) >= 2 && str[0] == '0' && str[1] == 'x'`
(48 and 120 are the bytes of the lowercase characters). -/
def HasHexPrefix (str : List Nat) : Bool :=
  decide (2 ≤ str.length) && (str.getD 0 0 == 48) && (str.getD 1 0 == 120)

/-- utils.go `RemoveHexPrefix`: strips the first two bytes when the prefix
is present. -/
def RemoveHexPrefix (str : List Nat) : List Nat :=
  if HasHexPrefix str then str.drop 2 else str

/-- Digit value of a byte for `big.Int.SetString`: 0-9, then letters
(either case) from 10, valid when below the base. -/
def digitValue (base c : Nat) : Option Nat :=
  let d :=
    if 48 ≤ c ∧ c ≤ 57 then some (c - 48)
    else if 97 ≤ c ∧ c ≤ 122 then some (c - 87)
    else if 65 ≤ c ∧ c ≤ 90 then some (c - 55)
    else none
  match d with
  | some v => if v < base then some v else none
  | none => none

/-- Accumulating digit scan for `setString`. -/
def parseDigitsAux (base : Nat) : List Nat → Nat → Option Nat
  | [], acc => some acc
  | c :: cs, acc =>
    match digitValue base c with
    | none => none
    | some d => parseDigitsAux base cs (acc * base + d)

/-- Model of `big.Int.SetString` for the bases 10 and 16: an optional sign
(`+` is 43, `-` is 45) followed by at least one digit of the base;
anything else fails (`ok = false`). -/
def setString (base : Nat) (s : List Nat) : Option Int :=
  match s with
  | [] => none
  | 43 :: rest =>
    if rest = [] then none else (parseDigitsAux base rest 0).map (fun v => (v : Int))
  | 45 :: rest =>
    if rest = [] then none else (parseDigitsAux base rest 0).map (fun v => -(v : Int))
  | s => (parseDigitsAux base s 0).map (fun v => (v : Int))

/-- ethabi.go `EVMTranscodeBytes`: the dynamic-bytes encoding.  The number
branch silently swallows an encoder error, returning the empty slice with a
nil error. -/
def EVMTranscodeBytes (value : GJSON) : Except EVMError (List Nat) :=
  let pre := EVMWordUint64 (EVMWordByteLen * 2)
  match value with
  | .jstr s =>
    ConcatBytes [pre, EVMWordUint64 s.length, s,
      List.replicate (EVMWordByteLen - s.length % EVMWordByteLen) 0]
  | .jfalse => ConcatBytes [pre, EVMWordUint64 EVMWordByteLen, EVMWordUint64 0]
  | .jtrue => ConcatBytes [pre, EVMWordUint64 EVMWordByteLen, EVMWordUint64 1]
  | .jnum n =>
    match EVMWordSignedBigInt (int64conv n) with
    | .error _ => .ok []
    | .ok word => ConcatBytes [pre, EVMWordUint64 EVMWordByteLen, word]
  | _ => .error .format

/-- ethabi.go `EVMTranscodeBool`: `output` starts at 0, is set to 1 by a
nonzero number, a non-empty string or `true`; `false` and `null` leave it 0;
any other kind errors. -/
def EVMTranscodeBool (value : GJSON) : Except EVMError (List Nat) :=
  match value with
  | .jnum n => .ok (EVMWordUint64 (if n ≠ 0 then 1 else 0))
  | .jstr s => .ok (EVMWordUint64 (if 0 < s.length then 1 else 0))
  | .jtrue => .ok (EVMWordUint64 1)
  | .jfalse => .ok (EVMWordUint64 0)
  | .jnull => .ok (EVMWordUint64 0)
  | .jother => .error .format

/-- ethabi.go `EVMTranscodeUint256`: strings parse base 16 after a "0x"
prefix and base 10 otherwise; a number goes through `uint64(value.Num)`;
null stays zero; other kinds error; the result feeds `EVMWordBigInt`. -/
def EVMTranscodeUint256 (value : GJSON) : Except EVMError (List Nat) :=
  match value with
  | .jstr s =>
    match if HasHexPrefix s then setString 16 (RemoveHexPrefix s) else setString 10 s with
    | none => .error .parse
    | some output => EVMWordBigInt output
  | .jnum n => EVMWordBigInt (uint64conv n : Int)
  | .jnull => EVMWordBigInt 0
  | _ => .error .format

/-- Two's-complement reading of a word over 256 bits, as the spec's glossary
defines it: the big-endian value `u` stands for itself below `2^255` and for
`u - 2^256` above. -/
def twosComplementDecode (w : List Nat) : Int :=
  if beVal w < 2 ^ 255 then (beVal w : Int) else (beVal w : Int) - 2 ^ 256

set_option maxRecDepth 40000

/-! ## Byte-level lemmas -/

theorem beVal_append (xs ys : List Nat) :
    beVal (xs ++ ys) = beVal xs * 256 ^ ys.length + beVal ys := by
  induction xs with
  | nil => simp [beVal]
  | cons a l ih =>
    simp only [List.cons_append, beVal, List.append_eq, ih, List.length_append, pow_add]
    ring

theorem beVal_replicate_zero (m : Nat) : beVal (List.replicate m 0) = 0 := by
  induction m with
  | zero => rfl
  | succ k ih => simp [List.replicate_succ, beVal, ih]

theorem beVal_zero_pad (m : Nat) (bs : List Nat) :
    beVal (List.replicate m 0 ++ bs) = beVal bs := by
  simp [beVal_append, beVal_replicate_zero]

theorem beVal_beBytesAux (fuel : Nat) : ∀ n : Nat, n ≤ fuel →
    beVal (beBytesAux fuel n) = n := by
  induction fuel with
  | zero =>
    intro n h
    have hn : n = 0 := by omega
    subst hn; rfl
  | succ fuel ih =>
    intro n h
    by_cases hn : n = 0
    · subst hn; simp [beBytesAux, beVal]
    · have hlt : n / 256 < n := Nat.div_lt_self (Nat.pos_of_ne_zero hn) (by norm_num)
      have h2 : n / 256 ≤ fuel := by omega
      simp only [beBytesAux, hn, if_false, beVal_append, ih _ h2, beVal]
      simp
      omega

theorem length_beBytesAux_le (fuel : Nat) : ∀ n k : Nat, n ≤ fuel → n < 256 ^ k →
    (beBytesAux fuel n).length ≤ k := by
  induction fuel with
  | zero =>
    intro n k h hk
    have hn : n = 0 := by omega
    subst hn; simp [beBytesAux]
  | succ fuel ih =>
    intro n k h hk
    by_cases hn : n = 0
    · subst hn; simp [beBytesAux]
    · cases k with
      | zero => simp at hk; omega
      | succ k =>
        have hlt : n / 256 < n := Nat.div_lt_self (Nat.pos_of_ne_zero hn) (by norm_num)
        have h2 : n / 256 ≤ fuel := by omega
        have hk2 : n / 256 < 256 ^ k := by
          rw [Nat.div_lt_iff_lt_mul (by norm_num)]
          calc n < 256 ^ (k + 1) := hk
          _ = 256 ^ k * 256 := by rw [pow_succ]
        have := ih _ _ h2 hk2
        simp only [beBytesAux, hn, if_false, List.length_append, List.length_cons,
          List.length_nil]
        omega

theorem lt_length_beBytesAux (fuel : Nat) : ∀ n k : Nat, n ≤ fuel → 256 ^ k ≤ n →
    k < (beBytesAux fuel n).length := by
  induction fuel with
  | zero =>
    intro n k h hk
    have : 0 < 256 ^ k := pow_pos (by norm_num) k
    omega
  | succ fuel ih =>
    intro n k h hk
    have hpos : 0 < 256 ^ k := pow_pos (by norm_num) k
    have hn : n ≠ 0 := by omega
    cases k with
    | zero =>
      simp only [beBytesAux, hn, if_false, List.length_append, List.length_cons,
        List.length_nil]
      omega
    | succ k =>
      have hlt : n / 256 < n := Nat.div_lt_self (Nat.pos_of_ne_zero hn) (by norm_num)
      have h2 : n / 256 ≤ fuel := by omega
      have hk2 : 256 ^ k ≤ n / 256 := by
        rw [Nat.le_div_iff_mul_le (by norm_num)]
        calc 256 ^ k * 256 = 256 ^ (k + 1) := by rw [pow_succ]
        _ ≤ n := hk
      have := ih _ _ h2 hk2
      simp only [beBytesAux, hn, if_false, List.length_append, List.length_cons,
        List.length_nil]
      omega

theorem beVal_natToBEBytes (n : Nat) : beVal (natToBEBytes n) = n :=
  beVal_beBytesAux n n le_rfl

theorem length_natToBEBytes_le (n k : Nat) (hk : n < 256 ^ k) :
    (natToBEBytes n).length ≤ k :=
  length_beBytesAux_le n n k le_rfl hk

theorem lt_length_natToBEBytes (n k : Nat) (hk : 256 ^ k ≤ n) :
    k < (natToBEBytes n).length :=
  lt_length_beBytesAux n n k le_rfl hk

theorem bitLenAux_le_iff (fuel : Nat) : ∀ n k : Nat, n ≤ fuel →
    (bitLenAux fuel n ≤ k ↔ n < 2 ^ k) := by
  induction fuel with
  | zero =>
    intro n k h
    have hn : n = 0 := by omega
    subst hn
    have hpow : 0 < 2 ^ k := pow_pos (by norm_num) k
    simp [bitLenAux, hpow]
  | succ fuel ih =>
    intro n k h
    by_cases hn : n = 0
    · subst hn
      have hpow : 0 < 2 ^ k := pow_pos (by norm_num) k
      simp [bitLenAux, hpow]
    · have hlt : n / 2 < n := Nat.div_lt_self (Nat.pos_of_ne_zero hn) (by norm_num)
      have h2 : n / 2 ≤ fuel := by omega
      cases k with
      | zero =>
        simp only [bitLenAux, hn, if_false, pow_zero]
        omega
      | succ k =>
        simp only [bitLenAux, hn, if_false]
        rw [Nat.succ_le_succ_iff, ih _ _ h2, Nat.div_lt_iff_lt_mul (by norm_num),
          ← pow_succ]

theorem bitLen_le_iff (n k : Nat) : bitLen n ≤ k ↔ n < 2 ^ k :=
  bitLenAux_le_iff n n k le_rfl

theorem length_leftPadBytes (bs : List Nat) (l : Nat) (h : bs.length ≤ l) :
    (leftPadBytes bs l).length = l := by
  unfold leftPadBytes
  split
  · omega
  · simp
    omega

theorem beVal_leftPadBytes (bs : List Nat) (l : Nat) :
    beVal (leftPadBytes bs l) = beVal bs := by
  unfold leftPadBytes
  split
  · rfl
  · exact beVal_zero_pad _ _

/-! ## EVMWordUint64 lemmas -/

theorem length_EVMWordUint64 (u : Nat) : (EVMWordUint64 u).length = 32 := by
  simp [EVMWordUint64]

theorem beVal_rangeDigits (k : Nat) : ∀ val : Nat,
    beVal ((List.range k).map fun j => val / 256 ^ (k - 1 - j) % 256) = val % 256 ^ k := by
  induction k with
  | zero => intro val; simp [beVal, Nat.mod_one]
  | succ k ih =>
    intro val
    rw [List.range_succ_eq_map, List.map_cons, List.map_map]
    have hcongr : ∀ m1 m2 : Nat, m1 = m2 → val / 256 ^ m1 % 256 = val / 256 ^ m2 % 256 := by
      intro m1 m2 hm
      rw [hm]
    have hfun : ((fun j => val / 256 ^ (k + 1 - 1 - j) % 256) ∘ Nat.succ)
        = fun j => val / 256 ^ (k - 1 - j) % 256 := by
      funext j
      simp only [Function.comp_apply]
      exact hcongr _ _ (by omega)
    rw [hfun, beVal, ih]
    have hk0 : k + 1 - 1 - 0 = k := by omega
    rw [hk0]
    simp only [List.length_map, List.length_range]
    rw [pow_succ, Nat.mod_mul]
    ring

theorem beVal_low8 (u : Nat) (h : u < 2 ^ 64) :
    beVal ((List.range 8).map fun j => u / 256 ^ (7 - j) % 256) = u := by
  have hfun : (fun j => u / 256 ^ (8 - 1 - j) % 256) = fun j => u / 256 ^ (7 - j) % 256 := by
    funext j
    norm_num
  rw [← hfun, beVal_rangeDigits 8 u]
  apply Nat.mod_eq_of_lt
  calc u < 2 ^ 64 := h
  _ = 256 ^ 8 := by norm_num

theorem beVal_EVMWordUint64 (u : Nat) (h : u < 2 ^ 64) : beVal (EVMWordUint64 u) = u := by
  unfold EVMWordUint64
  rw [beVal_zero_pad]
  exact beVal_low8 u h

/-! ## Word encoder correctness -/

theorem natAbs_lt_of_bounds {v : Int} {m : Nat} (h0 : -((m : Int)) ≤ v) (h1 : v ≤ (m : Int)) :
    v.natAbs ≤ m := by
  have hcast : (v.natAbs : Int) ≤ (m : Int) := by
    rcases Int.natAbs_eq v with h | h
    · rw [← h]
      exact h1
    · have : (v.natAbs : Int) = -v := by omega
      linarith
  exact_mod_cast hcast

theorem evmWordSignedBigInt_ok (v : Int) (habs : v.natAbs < 2 ^ 255) :
    ∃ w, EVMWordSignedBigInt v = Except.ok w ∧ w.length = 32 ∧
      twosComplementDecode w = v := by
  have hbit : ¬ bitLen v.natAbs > 8 * EVMWordByteLen - 1 := by
    have hle : bitLen v.natAbs ≤ 255 := (bitLen_le_iff _ _).mpr habs
    simp only [EVMWordByteLen]
    omega
  have hcast : (v.natAbs : Int) < 2 ^ 255 := by
    have h2 : ((2 ^ 255 : Nat) : Int) = 2 ^ 255 := by push_cast
    rw [← h2]
    exact_mod_cast habs
  have hM : MaxUint256 = 2 ^ 256 - 1 := rfl
  by_cases hneg : v < 0
  · -- negative: the word holds v + 2^256
    have hvlow : -(2 ^ 255) < v := by
      rcases Int.natAbs_eq v with h | h
      · linarith [h ▸ hneg]
      · have : (v.natAbs : Int) = -v := by omega
        linarith
    have hpos : (0 : Int) ≤ v + MaxUint256 + 1 := by
      rw [hM]
      have h256 : (2 : Int) ^ 256 = 2 ^ 255 * 2 := by ring
      linarith
    set u : Nat := (v + MaxUint256 + 1).toNat with hu
    have hucast : (u : Int) = v + 2 ^ 256 := by
      rw [hu, Int.toNat_of_nonneg hpos, hM]
      ring
    have hu1 : 2 ^ 255 ≤ u := by
      have : (2 ^ 255 : Int) ≤ (u : Int) := by
        rw [hucast]
        have h256 : (2 : Int) ^ 256 = 2 ^ 255 * 2 := by ring
        linarith
      have h2 : ((2 ^ 255 : Nat) : Int) = 2 ^ 255 := by push_cast
      rw [← h2] at this
      exact_mod_cast this
    have hu2 : u < 256 ^ 32 := by
      have : (u : Int) < 2 ^ 256 := by
        rw [hucast]
        linarith
      have h2 : ((256 ^ 32 : Nat) : Int) = 2 ^ 256 := by norm_num
      rw [← h2] at this
      exact_mod_cast this
    have hlen : (natToBEBytes u).length ≤ 32 := length_natToBEBytes_le u 32 hu2
    refine ⟨leftPadBytes (natToBEBytes u) EVMWordByteLen, ?_, ?_, ?_⟩
    · unfold EVMWordSignedBigInt
      rw [if_neg hbit, if_pos hneg]
    · exact length_leftPadBytes _ _ hlen
    · unfold twosComplementDecode
      rw [beVal_leftPadBytes, beVal_natToBEBytes]
      rw [if_neg (by omega)]
      rw [hucast]
      ring
  · -- non-negative: the word holds the magnitude itself
    push_neg at hneg
    have hlt : v.natAbs < 256 ^ 32 := by
      calc v.natAbs < 2 ^ 255 := habs
      _ < 256 ^ 32 := by norm_num
    have hlen : (natToBEBytes v.natAbs).length ≤ 32 := length_natToBEBytes_le _ 32 hlt
    refine ⟨leftPadBytes (natToBEBytes v.natAbs) EVMWordByteLen, ?_, ?_, ?_⟩
    · unfold EVMWordSignedBigInt
      rw [if_neg hbit, if_neg (not_lt.mpr hneg)]
    · exact length_leftPadBytes _ _ hlen
    · unfold twosComplementDecode
      rw [beVal_leftPadBytes, beVal_natToBEBytes, if_pos habs]
      exact Int.natAbs_of_nonneg hneg

theorem int64conv_natAbs_le (n : Int) : (int64conv n).natAbs ≤ 2 ^ 63 := by
  unfold int64conv
  split
  · next h =>
    have h2 : ((2 ^ 63 : Nat) : Int) = 2 ^ 63 := by push_cast
    exact natAbs_lt_of_bounds (by omega) (by omega)
  · norm_num

theorem evmWordSignedBigInt_int64_ok (n : Int) :
    ∃ w, EVMWordSignedBigInt (int64conv n) = Except.ok w ∧ w.length = 32 ∧
      twosComplementDecode w = int64conv n := by
  apply evmWordSignedBigInt_ok
  calc (int64conv n).natAbs ≤ 2 ^ 63 := int64conv_natAbs_le n
  _ < 2 ^ 255 := by norm_num

/-! ## Claim theorems -/

/-- C1 (amended): for every integer v with -(2^255-1) ≤ v ≤ 2^255-1 (the code's
[MinInt256, MaxInt256]), EVMWordSignedBigInt succeeds and returns a 32-byte
word whose 256-bit two's-complement decoding equals v; at v = 2^255
(MaxInt256 + 1) and at v = -(2^255) (MinInt256 - 1) it returns an
OverflowError. -/
theorem evmWordSignedBigInt_range_correct (v : Int)
    (h0 : -(2 ^ 255 - 1) ≤ v) (h1 : v ≤ 2 ^ 255 - 1) :
    (∃ w, EVMWordSignedBigInt v = Except.ok w ∧ w.length = 32 ∧
      twosComplementDecode w = v) ∧
    EVMWordSignedBigInt (2 ^ 255) = Except.error EVMError.overflow ∧
    EVMWordSignedBigInt (-(2 ^ 255)) = Except.error EVMError.overflow := by
  refine ⟨?_, rfl, rfl⟩
  apply evmWordSignedBigInt_ok
  have hnat : v.natAbs ≤ 2 ^ 255 - 1 := by
    apply natAbs_lt_of_bounds
    · push_cast
      omega
    · push_cast
      omega
  omega

/-- C1 witness: the theorem applied at v = -5, whose word decodes back to -5. -/
theorem evmWordSignedBigInt_range_correct_witness :
    (∃ w, EVMWordSignedBigInt (-5) = Except.ok w ∧ w.length = 32 ∧
      twosComplementDecode w = -5) ∧
    EVMWordSignedBigInt (2 ^ 255) = Except.error EVMError.overflow ∧
    EVMWordSignedBigInt (-(2 ^ 255)) = Except.error EVMError.overflow :=
  evmWordSignedBigInt_range_correct (-5) (by norm_num) (by norm_num)

/-- C1 counterexample: at v = -(2^255), inside the claimed range
[-2^255, 2^255-1], the encoder does not succeed: the magnitude's bit length
is 256 > 255, so it returns an OverflowError. -/
theorem evmWordSignedBigInt_minInt_cex :
    EVMWordSignedBigInt (-(2 ^ 255)) = Except.error EVMError.overflow ∧
    bitLen (Int.natAbs (-(2 ^ 255))) = 256 :=
  ⟨rfl, rfl⟩

/-- C2 (amended): the range constants computed by init hold
MaxUint256 = 2^256 - 1 and MaxInt256 = 2^255 - 1 as claimed, but
MinInt256 = -MaxInt256 = -(2^255 - 1), not -(2^255). -/
theorem rangeConstants_values :
    MaxUint256 = 2 ^ 256 - 1 ∧ MaxInt256 = 2 ^ 255 - 1 ∧
    MinInt256 = -(2 ^ 255 - 1) :=
  ⟨rfl, by decide, by decide⟩

/-- C2 counterexample: MinInt256 is -(2^255 - 1), and deciding equality with
the claimed value -(2^255) yields false. -/
theorem rangeConstants_minInt_cex :
    MinInt256 = -(2 ^ 255 - 1) ∧ decide (MinInt256 = -(2 ^ 255)) = false :=
  ⟨by decide, by decide⟩

/-- C4: for 0 ≤ v ≤ MaxUint256, EVMWordBigInt returns a 32-byte word that is
the zero-left-padded big-endian magnitude of v (its big-endian decoding is
v); every negative value yields the sign error and MaxUint256 + 1 yields an
OverflowError. -/
theorem evmWordBigInt_range_correct (v : Int) (h0 : 0 ≤ v) (h1 : v ≤ MaxUint256) :
    (∃ w, EVMWordBigInt v = Except.ok w ∧ w.length = 32 ∧ (beVal w : Int) = v) ∧
    (∀ u : Int, u < 0 → EVMWordBigInt u = Except.error EVMError.sign) ∧
    EVMWordBigInt (MaxUint256 + 1) = Except.error EVMError.overflow := by
  refine ⟨?_, ?_, rfl⟩
  · have hM : MaxUint256 = 2 ^ 256 - 1 := rfl
    have habs : v.natAbs < 256 ^ 32 := by
      have hcast : (v.natAbs : Int) ≤ 2 ^ 256 - 1 := by
        rw [Int.natAbs_of_nonneg h0]
        rw [hM] at h1
        exact h1
      have h2 : ((256 ^ 32 : Nat) : Int) = 2 ^ 256 := by norm_num
      have : (v.natAbs : Int) < ((256 ^ 32 : Nat) : Int) := by
        rw [h2]
        linarith
      exact_mod_cast this
    have hlen : (natToBEBytes v.natAbs).length ≤ 32 := length_natToBEBytes_le _ 32 habs
    refine ⟨leftPadBytes (natToBEBytes v.natAbs) EVMWordByteLen, ?_, ?_, ?_⟩
    · unfold EVMWordBigInt
      rw [if_neg (not_lt.mpr h0), if_neg (by simp only [EVMWordByteLen]; omega)]
    · exact length_leftPadBytes _ _ hlen
    · rw [beVal_leftPadBytes, beVal_natToBEBytes, Int.natAbs_of_nonneg h0]
  · intro u hu
    unfold EVMWordBigInt
    rw [if_pos hu]

/-- C4 witness: the theorem applied at v = 26. -/
theorem evmWordBigInt_range_correct_witness :
    (∃ w, EVMWordBigInt 26 = Except.ok w ∧ w.length = 32 ∧ (beVal w : Int) = 26) ∧
    (∀ u : Int, u < 0 → EVMWordBigInt u = Except.error EVMError.sign) ∧
    EVMWordBigInt (MaxUint256 + 1) = Except.error EVMError.overflow :=
  evmWordBigInt_range_correct 26 (by norm_num) (by decide)

/-- C7: for every u < 2^64, EVMWordUint64 u is exactly 32 bytes, its high 24
bytes are zero, its low 8 bytes are u big-endian, and the whole word decodes
big-endian to u; the function is total. -/
theorem evmWordUint64_correct (u : Nat) (h : u < 2 ^ 64) :
    (EVMWordUint64 u).length = 32 ∧
    (EVMWordUint64 u).take 24 = List.replicate 24 0 ∧
    beVal ((EVMWordUint64 u).drop 24) = u ∧
    beVal (EVMWordUint64 u) = u := by
  refine ⟨length_EVMWordUint64 u, ?_, ?_, beVal_EVMWordUint64 u h⟩
  · unfold EVMWordUint64
    exact List.take_left' (by simp)
  · unfold EVMWordUint64
    rw [List.drop_left' (by simp)]
    exact beVal_low8 u h

/-- C7 witness: the theorem applied at u = 5. -/
theorem evmWordUint64_correct_witness :
    (EVMWordUint64 5).length = 32 ∧
    (EVMWordUint64 5).take 24 = List.replicate 24 0 ∧
    beVal ((EVMWordUint64 5).drop 24) = 5 ∧
    beVal (EVMWordUint64 5) = 5 :=
  evmWordUint64_correct 5 (by norm_num)

/-- C8: HasHexPrefix s is true exactly when s has at least two bytes and
starts with the two bytes of lowercase "0x"; in particular it accepts
"0xFF" and rejects "0XFF" (uppercase X, byte 88). -/
theorem hasHexPrefix_correct (s : List Nat) :
    (HasHexPrefix s = true ↔ 2 ≤ s.length ∧ s.take 2 = [48, 120]) ∧
    HasHexPrefix [48, 120, 70, 70] = true ∧
    HasHexPrefix [48, 88, 70, 70] = false := by
  refine ⟨?_, by decide, by decide⟩
  match s with
  | [] => simp [HasHexPrefix]
  | [a] => simp [HasHexPrefix]
  | a :: b :: t =>
    simp [HasHexPrefix, List.getD]

/-- C3 (amended): transcodeUint256 of the decimal string "-1" parses to the
big integer -1 and returns the encoder's SignError (negatives are not
pre-checked in the transcoder); a JSON number -1 instead goes through the
unsigned 64-bit conversion, so the encoder receives 2^64 - 1 and succeeds. -/
theorem evmTranscodeUint256_neg1 :
    setString 10 [45, 49] = some (-1) ∧
    EVMWordBigInt (-1) = Except.error EVMError.sign ∧
    EVMTranscodeUint256 (GJSON.jstr [45, 49]) = Except.error EVMError.sign ∧
    uint64conv (-1) = 2 ^ 64 - 1 ∧
    EVMTranscodeUint256 (GJSON.jnum (-1)) =
      Except.ok (List.replicate 24 0 ++ List.replicate 8 255) :=
  ⟨rfl, rfl, rfl, rfl, rfl⟩

/-- C3 counterexample: for the JSON number -1 the transcoder does not return
a SignError: the unsigned 64-bit conversion hands the encoder a non-negative
value, and the call succeeds with the word of 2^64 - 1. -/
theorem evmTranscodeUint256_jnum_neg1_cex :
    EVMTranscodeUint256 (GJSON.jnum (-1)) =
      Except.ok (List.replicate 24 0 ++ List.replicate 8 255) :=
  rfl

/-- C5: for every string input s (with a length below 2^64, as Go lengths
are), transcodeBytes succeeds and returns the offset word encoding 64, the
length word encoding the byte count, the content bytes, and
32 - (len mod 32) zero bytes — a full extra zero word when the byte count is
a multiple of 32 — for a total of 96 + 32 * (len / 32) bytes. -/
theorem evmTranscodeBytes_string_layout (s : List Nat) (hlen : s.length < 2 ^ 64) :
    ∃ offW lenW, EVMTranscodeBytes (GJSON.jstr s) =
        Except.ok (offW ++ lenW ++ s ++ List.replicate (32 - s.length % 32) 0) ∧
      offW.length = 32 ∧ beVal offW = 64 ∧
      lenW.length = 32 ∧ beVal lenW = s.length ∧
      (s.length % 32 = 0 → 32 - s.length % 32 = 32) ∧
      (offW ++ lenW ++ s ++ List.replicate (32 - s.length % 32) 0).length
        = 96 + 32 * (s.length / 32) := by
  refine ⟨EVMWordUint64 64, EVMWordUint64 s.length, ?_, length_EVMWordUint64 _,
    beVal_EVMWordUint64 64 (by norm_num), length_EVMWordUint64 _,
    beVal_EVMWordUint64 _ hlen, by omega, ?_⟩
  · simp [EVMTranscodeBytes, ConcatBytes, EVMWordByteLen]
  · simp only [List.length_append, length_EVMWordUint64, List.length_replicate]
    omega

/-- C5 witness: the theorem applied to the two-byte string "ab": 96 bytes in
total, length word 2, 30 zero-padding bytes. -/
theorem evmTranscodeBytes_string_layout_witness :
    ∃ offW lenW, EVMTranscodeBytes (GJSON.jstr [97, 98]) =
        Except.ok (offW ++ lenW ++ [97, 98] ++ List.replicate 30 0) ∧
      offW.length = 32 ∧ beVal offW = 64 ∧
      lenW.length = 32 ∧ beVal lenW = 2 ∧
      (2 % 32 = 0 → 32 - 2 % 32 = 32) ∧
      (offW ++ lenW ++ [97, 98] ++ List.replicate 30 0).length = 96 :=
  evmTranscodeBytes_string_layout [97, 98] (by norm_num)

/-- C6: transcodeBool returns the word encoding 1 exactly on nonzero numbers,
non-empty strings and true; the word encoding 0 exactly on the number 0, the
empty string, false and null; and a FormatError exactly on any other kind. -/
theorem evmTranscodeBool_correct (v : GJSON) :
    (EVMTranscodeBool v = Except.ok (EVMWordUint64 1) ↔
      (∃ n, v = GJSON.jnum n ∧ n ≠ 0) ∨ (∃ s, v = GJSON.jstr s ∧ s ≠ []) ∨
        v = GJSON.jtrue) ∧
    (EVMTranscodeBool v = Except.ok (EVMWordUint64 0) ↔
      v = GJSON.jnum 0 ∨ v = GJSON.jstr [] ∨ v = GJSON.jfalse ∨ v = GJSON.jnull) ∧
    (EVMTranscodeBool v = Except.error EVMError.format ↔ v = GJSON.jother) ∧
    (EVMWordUint64 1).length = 32 ∧ beVal (EVMWordUint64 1) = 1 ∧
    (EVMWordUint64 0).length = 32 ∧ beVal (EVMWordUint64 0) = 0 := by
  have hW : EVMWordUint64 0 ≠ EVMWordUint64 1 := by decide
  refine ⟨?_, ?_, ?_, by decide, by decide, by decide, by decide⟩
  · cases v with
    | jnum n =>
      by_cases hn : n = 0 <;> simp [EVMTranscodeBool, hn, hW]
    | jstr s =>
      rcases s with _ | ⟨c, t⟩ <;> simp [EVMTranscodeBool, hW]
    | jtrue => simp [EVMTranscodeBool]
    | jfalse => simp [EVMTranscodeBool, hW]
    | jnull => simp [EVMTranscodeBool, hW]
    | jother => simp [EVMTranscodeBool]
  · cases v with
    | jnum n =>
      by_cases hn : n = 0 <;> simp [EVMTranscodeBool, hn, hW.symm]
    | jstr s =>
      rcases s with _ | ⟨c, t⟩ <;> simp [EVMTranscodeBool, hW.symm]
    | jtrue => simp [EVMTranscodeBool, hW.symm]
    | jfalse => simp [EVMTranscodeBool]
    | jnull => simp [EVMTranscodeBool]
    | jother => simp [EVMTranscodeBool]
  · cases v <;> simp [EVMTranscodeBool]

/-- C6 witness: transcodeBool at the concrete inputs the spec lists. -/
theorem evmTranscodeBool_correct_witness :
    (EVMTranscodeBool GJSON.jtrue = Except.ok (EVMWordUint64 1) ↔
      (∃ n, GJSON.jtrue = GJSON.jnum n ∧ n ≠ 0) ∨
        (∃ s, GJSON.jtrue = GJSON.jstr s ∧ s ≠ []) ∨ GJSON.jtrue = GJSON.jtrue) ∧
    (EVMTranscodeBool GJSON.jtrue = Except.ok (EVMWordUint64 0) ↔
      GJSON.jtrue = GJSON.jnum 0 ∨ GJSON.jtrue = GJSON.jstr [] ∨
        GJSON.jtrue = GJSON.jfalse ∨ GJSON.jtrue = GJSON.jnull) ∧
    (EVMTranscodeBool GJSON.jtrue = Except.error EVMError.format ↔
      GJSON.jtrue = GJSON.jother) ∧
    (EVMWordUint64 1).length = 32 ∧ beVal (EVMWordUint64 1) = 1 ∧
    (EVMWordUint64 0).length = 32 ∧ beVal (EVMWordUint64 0) = 0 :=
  evmTranscodeBool_correct GJSON.jtrue

/-- C9 (amended): for every JSON number input, EVMTranscodeBytes succeeds —
the branch that would swallow an encoder error into an empty ok-result is
unreachable, because the value is first truncated to a signed 64-bit
integer, whose magnitude fits in 64 bits (at most 2^63), and
EVMWordSignedBigInt only fails past 255 bits. -/
theorem evmTranscodeBytes_number_total (n : Int) :
    bitLen (int64conv n).natAbs ≤ 64 ∧
    ∃ w, EVMWordSignedBigInt (int64conv n) = Except.ok w ∧
      EVMTranscodeBytes (GJSON.jnum n) =
        Except.ok (EVMWordUint64 64 ++ EVMWordUint64 32 ++ w) := by
  have hbit : bitLen (int64conv n).natAbs ≤ 64 := by
    apply (bitLen_le_iff _ _).mpr
    calc (int64conv n).natAbs ≤ 2 ^ 63 := int64conv_natAbs_le n
    _ < 2 ^ 64 := by norm_num
  obtain ⟨w, hw, hwlen, hdec⟩ := evmWordSignedBigInt_int64_ok n
  refine ⟨hbit, w, hw, ?_⟩
  simp [EVMTranscodeBytes, hw, ConcatBytes, EVMWordByteLen]

/-- C9 counterexample: at the JSON number -(2^63) the truncated 64-bit value
is -(2^63) itself, whose magnitude 2^63 does not fit in 63 bits (its bit
length is 64, and deciding the 63-bit bound yields false) — yet the call
still succeeds, so only the claim's bit-count is off. -/
theorem evmTranscodeBytes_number_63bit_cex :
    int64conv (-(2 ^ 63)) = -(2 ^ 63) ∧
    (int64conv (-(2 ^ 63))).natAbs = 2 ^ 63 ∧
    bitLen (int64conv (-(2 ^ 63))).natAbs = 64 ∧
    decide ((int64conv (-(2 ^ 63))).natAbs < 2 ^ 63) = false ∧
    EVMTranscodeBytes (GJSON.jnum (-(2 ^ 63))) =
      Except.ok (EVMWordUint64 64 ++ EVMWordUint64 32 ++
        (List.replicate 24 255 ++ 128 :: List.replicate 7 0)) :=
  ⟨rfl, rfl, rfl, rfl, rfl⟩

/-- C10: whenever EVMTranscodeBytes returns without error, the output length
is a multiple of 32 and at least 96 bytes, and the empty string yields
exactly 96 bytes. -/
theorem evmTranscodeBytes_ok_length (v : GJSON) (out : List Nat)
    (h : EVMTranscodeBytes v = Except.ok out) :
    out.length % 32 = 0 ∧ 96 ≤ out.length ∧
      (v = GJSON.jstr [] → out.length = 96) := by
  cases v with
  | jstr s =>
    simp only [EVMTranscodeBytes, ConcatBytes, Except.ok.injEq] at h
    subst h
    simp only [List.length_flatten, List.map_cons, List.map_nil, List.sum_cons,
      List.sum_nil, length_EVMWordUint64, List.length_replicate, EVMWordByteLen,
      GJSON.jstr.injEq]
    refine ⟨by omega, by omega, ?_⟩
    intro hs
    subst hs
    simp
  | jtrue =>
    simp only [EVMTranscodeBytes, ConcatBytes, Except.ok.injEq] at h
    subst h
    simp only [List.length_flatten, List.map_cons, List.map_nil, List.sum_cons,
      List.sum_nil, length_EVMWordUint64]
    refine ⟨by omega, by omega, by simp⟩
  | jfalse =>
    simp only [EVMTranscodeBytes, ConcatBytes, Except.ok.injEq] at h
    subst h
    simp only [List.length_flatten, List.map_cons, List.map_nil, List.sum_cons,
      List.sum_nil, length_EVMWordUint64]
    refine ⟨by omega, by omega, by simp⟩
  | jnum n =>
    obtain ⟨w, hw, hwlen, hdec⟩ := evmWordSignedBigInt_int64_ok n
    simp only [EVMTranscodeBytes, hw, ConcatBytes, Except.ok.injEq] at h
    subst h
    simp only [List.length_flatten, List.map_cons, List.map_nil, List.sum_cons,
      List.sum_nil, length_EVMWordUint64, hwlen]
    refine ⟨by omega, by omega, by simp⟩
  | jnull => simp [EVMTranscodeBytes] at h
  | jother => simp [EVMTranscodeBytes] at h

/-- C10 witness: the theorem applied to the empty string, whose encoding is
the 96-byte sequence of offset word, zero length word and one zero pad
word. -/
theorem evmTranscodeBytes_ok_length_witness :
    ∃ out, EVMTranscodeBytes (GJSON.jstr []) = Except.ok out ∧
      out.length % 32 = 0 ∧ 96 ≤ out.length ∧ out.length = 96 :=
  ⟨_, rfl, (evmTranscodeBytes_ok_length (GJSON.jstr []) _ rfl).1,
    (evmTranscodeBytes_ok_length (GJSON.jstr []) _ rfl).2.1,
    (evmTranscodeBytes_ok_length (GJSON.jstr []) _ rfl).2.2 rfl⟩
